import Mathlib

/-!
Verification development for the obfuscation-rule-DB rule engine.

The Python sources embedded here are:
- `rule_engine/rules/pattern_matcher.py` (class `PatternMatcher`): condition
  evaluation, property-path traversal (including the transitive `superclass`
  walk), edge-existence tests, `not_exists` negation, and the `find`/`where`
  driver.
- `rule_engine/core/analysis_engine.py` (class `AnalysisEngine`): rule
  iteration, reason accumulation, result emission.

The symbol graph class (`rule_engine/graph/graph_loader.py`) is not part of
the sources; its three primitive operations are modelled from the spec
(section 4.1), as marked on each definition.

Candidate sets are modelled as `Finset String` (Python `set` of node-id
strings); Python dict/attribute lookups are association lists; a Python value
appearing in rules is the inductive `Value` below.
-/

namespace RuleDB

/-- The single-quote character, used by the value parser for quoted literals. -/
def squote : Char := Char.ofNat 39

/-- Python `str.isspace`-style whitespace recognizer for the characters that
`str.split()` and `str.strip()` split and strip on. -/
def isPySpace (c : Char) : Bool :=
  c == ' ' || c == '\t' || c == '\n' || c == '\r' || c == Char.ofNat 11 || c == Char.ofNat 12

/-- Python `str.strip()` on a character list: drop whitespace from both ends. -/
def pyStripChars (l : List Char) : List Char :=
  ((l.dropWhile isPySpace).reverse.dropWhile isPySpace).reverse

/-- Python `str.strip()` on a string. -/
def pyStrip (s : String) : String := String.mk (pyStripChars s.toList)

/-- Splits a character list at every character satisfying `p`, keeping empty
pieces (accumulator form, structurally recursive so that concrete condition
strings evaluate inside the kernel). -/
def splitPredAux (p : Char → Bool) (cur : List Char) : List Char → List (List Char)
  | [] => [cur.reverse]
  | c :: rest =>
      if p c then cur.reverse :: splitPredAux p [] rest else splitPredAux p (c :: cur) rest

/-- Python `str.split()` with no separator: split on whitespace, dropping
empty pieces (which collapses runs and trims the ends, as Python does). -/
def pySplitWs (s : String) : List String :=
  ((splitPredAux isPySpace [] s.toList).map String.mk).filter (· ≠ "")

/-- Python `s.split('.')` (empty pieces kept). -/
def dotSplit (s : String) : List String :=
  (splitPredAux (· == '.') [] s.toList).map String.mk

/-- Python `' '.join(l)`. -/
def joinSpace : List String → String
  | [] => ""
  | [x] => x
  | x :: y :: rest => x ++ " " ++ joinSpace (y :: rest)

/-- Python `s.startswith(r)` for string arguments. -/
def strStartsWith (s r : String) : Bool :=
  s.toList.take r.toList.length == r.toList

/-- Python substring membership `needle in hay`. -/
def containsSub (hay needle : String) : Bool :=
  (List.range (hay.toList.length + 1)).any
    (fun i => (hay.toList.drop i).take needle.toList.length == needle.toList)

/-- Index of the first occurrence of `needle` in `hay`, if any. -/
def firstIndexOfSub (hay needle : String) : Option Nat :=
  ((List.range (hay.toList.length + 1)).filter
    (fun i => (hay.toList.drop i).take needle.toList.length == needle.toList)).head?

/-- Index of the last occurrence of `needle` in `hay`, if any. -/
def lastIndexOfSub (hay needle : String) : Option Nat :=
  ((List.range (hay.toList.length + 1)).filter
    (fun i => (hay.toList.drop i).take needle.toList.length == needle.toList)).getLast?

/-- Python `hay.rsplit(needle, 1)[1]`: the text after the last occurrence of
`needle` (the whole string when `needle` does not occur, a case the callers
below never reach). -/
def afterLastSub (hay needle : String) : String :=
  match lastIndexOfSub hay needle with
  | some i => String.mk (hay.toList.drop (i + needle.toList.length))
  | none => hay

/-- Python `hay.split(needle, 1)[0]`: the text before the first occurrence of
`needle` (the whole string when `needle` does not occur). -/
def beforeFirstSub (hay needle : String) : String :=
  match firstIndexOfSub hay needle with
  | some i => String.mk (hay.toList.take i)
  | none => hay

/-- The text after the first occurrence of `needle` (the whole string when
`needle` does not occur). -/
def afterFirstSub (hay needle : String) : String :=
  match firstIndexOfSub hay needle with
  | some i => String.mk (hay.toList.drop (i + needle.toList.length))
  | none => hay

/-- The first two pieces of Python `hay.split(needle)`: the text before the
first occurrence, and the text from there to the following (non-overlapping)
occurrence.  `_filter_by_edge` only ever reads `parts[0]` and `parts[1]`. -/
def splitFirstTwo (hay needle : String) : String × String :=
  (beforeFirstSub hay needle, beforeFirstSub (afterFirstSub hay needle) needle)

/-- A typed value as produced by `PatternMatcher._parse_value` and as stored
in node attributes.  Floats are carried opaquely as their source text (no
claim depends on float arithmetic); a stored JSON `null` attribute is
modelled as attribute absence, which is extensionally exact because Python's
`dict.get` returns `None` for both and `_check_value` only ever sees that
`None`. -/
inductive Value where
  | vstr (s : String)
  | vint (n : Int)
  | vfloat (raw : String)
  | vbool (b : Bool)
  | vlist (elems : List Value)

mutual

/-- Python `==` on the values above: structural, with bool/int cross-equality
(`True == 1`); opaque floats compare by their raw text. -/
def pyEq : Value → Value → Bool
  | .vstr a, .vstr b => a == b
  | .vint a, .vint b => a == b
  | .vbool a, .vbool b => a == b
  | .vbool a, .vint b => (if a then (1 : Int) else 0) == b
  | .vint a, .vbool b => a == (if b then (1 : Int) else 0)
  | .vfloat a, .vfloat b => a == b
  | .vlist a, .vlist b => pyEqList a b
  | _, _ => false

/-- Python `==` on lists: pointwise `pyEq`. -/
def pyEqList : List Value → List Value → Bool
  | [], [] => true
  | x :: xs, y :: ys => pyEq x y && pyEqList xs ys
  | _, _ => false

end

/-- `l.foldl (fun n c => n * 10 + digit c) 0` over decimal digits. -/
def digitsToNat (l : List Char) : Nat :=
  l.foldl (fun n c => n * 10 + (c.toNat - 48)) 0

/-- Nonempty all-decimal-digits test. -/
def isDigits (l : List Char) : Bool := !l.isEmpty && l.all (·.isDigit)

/-- Python `int(s)` on an already-stripped string: optional sign followed by
decimal digits (digit-group underscores and non-ASCII digits are not
modelled). -/
def pyIntChars : List Char → Option Int
  | '-' :: rest => if isDigits rest then some (-(digitsToNat rest : Int)) else none
  | '+' :: rest => if isDigits rest then some (digitsToNat rest) else none
  | l => if isDigits l then some (digitsToNat l) else none

/-- Recognizer approximating the domain of Python `float(s)` on a stripped
string: optional sign, then `inf`/`infinity`/`nan` (case-insensitive) or a
mantissa with at most one dot and at least one digit, optionally followed by
an exponent part. -/
def floatLike (l0 : List Char) : Bool :=
  let l := match l0 with
    | c :: rest => if c == '+' || c == '-' then rest else l0
    | [] => l0
  let low := l.map Char.toLower
  if low == "inf".toList || low == "infinity".toList || low == "nan".toList then true
  else
    let mantissaOk : List Char → Bool := fun m =>
      m.all (fun c => c.isDigit || c == '.') && (m.filter (· == '.')).length ≤ 1 &&
        m.any (·.isDigit)
    match l.span (fun c => !(c == 'e' || c == 'E')) with
    | (mant, []) => mantissaOk mant
    | (mant, _ :: expPart) =>
        let ep := match expPart with
          | c :: rest => if c == '+' || c == '-' then rest else expPart
          | [] => expPart
        mantissaOk mant && isDigits ep

/-- Python `s.split(',')`. -/
def commaSplit (l : List Char) : List (List Char) := splitPredAux (· == ',') [] l

theorem splitPredAux_length_le (p : Char → Bool) (l : List Char) : ∀ (cur : List Char),
    ∀ q ∈ splitPredAux p cur l, q.length ≤ cur.length + l.length := by
  induction l with
  | nil =>
      intro cur q hq
      simp only [splitPredAux, List.mem_singleton] at hq
      subst hq
      simp
  | cons c rest ih =>
      intro cur q hq
      simp only [splitPredAux] at hq
      simp only [List.length_cons]
      by_cases hc : p c = true
      · rw [if_pos hc] at hq
        rcases List.mem_cons.mp hq with h | h
        · subst h
          simp only [List.length_reverse]
          omega
        · have hle := ih [] q h
          simp only [List.length_nil, Nat.zero_add] at hle
          omega
      · rw [if_neg hc] at hq
        have hle := ih (c :: cur) q hq
        simp only [List.length_cons] at hle
        omega

theorem commaSplit_length_le (l : List Char) : ∀ q ∈ commaSplit l, q.length ≤ l.length := by
  intro q hq
  have := splitPredAux_length_le (· == ',') l [] q hq
  simpa using this

theorem pyStripChars_length_le (l : List Char) : (pyStripChars l).length ≤ l.length := by
  unfold pyStripChars
  have h1 : (l.dropWhile isPySpace).length ≤ l.length := (List.dropWhile_sublist _).length_le
  have h2 : ((l.dropWhile isPySpace).reverse.dropWhile isPySpace).length ≤
      (l.dropWhile isPySpace).reverse.length := (List.dropWhile_sublist _).length_le
  simp only [List.length_reverse] at *
  omega

/-- `PatternMatcher._parse_value` on a character list: quoted string →
string; bracketed list → comma-split and recursively parsed items;
`true`/`false` (case-insensitive) → bool; integer parse → int; float parse →
opaque float; otherwise the bare (stripped) string. -/
def parseValueChars (s0 : List Char) : Value :=
  if ((pyStripChars s0).head? == some '"' && (pyStripChars s0).getLast? == some '"') ||
     ((pyStripChars s0).head? == some squote && (pyStripChars s0).getLast? == some squote) then
    .vstr (String.mk (((pyStripChars s0).drop 1).dropLast))
  else if h : (pyStripChars s0).head? == some '[' && (pyStripChars s0).getLast? == some ']' then
    if (pyStripChars (((pyStripChars s0).drop 1).dropLast)).isEmpty then .vlist []
    else .vlist ((commaSplit (pyStripChars (((pyStripChars s0).drop 1).dropLast))).attach.map
      (fun p => parseValueChars p.1))
  else if (pyStripChars s0).map Char.toLower == "true".toList then .vbool true
  else if (pyStripChars s0).map Char.toLower == "false".toList then .vbool false
  else match pyIntChars (pyStripChars s0) with
  | some n => .vint n
  | none =>
      if floatLike (pyStripChars s0) then .vfloat (String.mk (pyStripChars s0))
      else .vstr (String.mk (pyStripChars s0))
termination_by s0.length
decreasing_by
  have hs : (pyStripChars s0).length ≤ s0.length := pyStripChars_length_le s0
  have hlen2 : 2 ≤ (pyStripChars s0).length := by
    rcases Bool.and_eq_true .. |>.mp h with ⟨hh, hl⟩
    rw [beq_iff_eq] at hh hl
    cases hcase : pyStripChars s0 with
    | nil => rw [hcase] at hh; simp at hh
    | cons a t =>
        cases hcase2 : t with
        | nil =>
            rw [hcase, hcase2] at hh hl
            simp at hh hl
            rw [hh] at hl
            exact absurd hl (by decide)
        | cons b t2 => simp [hcase, hcase2]
  have hinner : (pyStripChars (((pyStripChars s0).drop 1).dropLast)).length ≤
      (pyStripChars s0).length - 2 := by
    have h1 := pyStripChars_length_le (((pyStripChars s0).drop 1).dropLast)
    have h2 : ((((pyStripChars s0)).drop 1).dropLast).length = (pyStripChars s0).length - 1 - 1 := by
      simp
    omega
  have hp := commaSplit_length_le _ _ p.2
  omega

/-- `PatternMatcher._parse_value`. -/
def parse_value (s : String) : Value := parseValueChars s.toList

/-- `PatternMatcher._check_value`, exactly as the Python executes: a `none`
property value answers `operator == '!='`; otherwise the operator dispatch,
with every type guard as written.  The one place where the Python can raise
(`str.startswith` called with a non-string, non-tuple argument raises
`TypeError`) is the `.error` result. -/
def check_value (prop_value : Option Value) (operator : String) (required_value : Value) :
    Except Unit Bool :=
  match prop_value with
  | none => .ok (operator == "!=")
  | some v =>
    if operator == "==" then .ok (pyEq v required_value)
    else if operator == "!=" then .ok (!pyEq v required_value)
    else if operator == "in" then
      .ok (match required_value with
        | .vlist xs => xs.any (fun item => pyEq item v)
        | _ => false)
    else if operator == "contains" then
      .ok (match v, required_value with
        | .vstr s, .vstr r => containsSub s r
        | _, _ => false)
    else if operator == "contains_any" then
      .ok (match v, required_value with
        | .vlist pv, .vlist rv => rv.any (fun item => pv.any (fun p => pyEq p item))
        | _, _ => false)
    else if operator == "starts_with" then
      match v with
      | .vstr s =>
        match required_value with
        | .vstr r => .ok (strStartsWith s r)
        | _ => .error ()
      | _ => .ok false
    else .ok false

/-- Total projection of `check_value` used by the set-level pipeline: the one
input region where the Python raises (`starts_with` with a string left side
and non-string right side, recorded as a code bug against the spec's
"type mismatch → false") is mapped to `false`, which is the behaviour the
spec states and every other operator implements. -/
def checkValueB (prop_value : Option Value) (operator : String) (required_value : Value) : Bool :=
  match check_value prop_value operator required_value with
  | .ok b => b
  | .error _ => false

deriving instance DecidableEq for Except

/-- Direction of a neighbour lookup: which endpoint the queried id occupies. -/
inductive Direction where
  | inDir
  | outDir
deriving DecidableEq

/-- A directed, typed edge (spec section 3 / 6.1). -/
structure Edge where
  source : String
  target : String
  type : String

/-- Node attributes: association list from attribute name to value. -/
abbrev NodeData := List (String × Value)

/-- Modelled from the spec: the symbol graph class
(`rule_engine/graph/graph_loader.py`) is not among the sources; spec
section 6.1 gives its data (nodes keyed by id carrying free-form attributes,
edges as `{source, target, type}` records). -/
structure SymbolGraph where
  nodes : List (String × NodeData)
  edges : List Edge

/-- Python `dict.get` on node attributes. -/
def attrGet (nd : NodeData) (key : String) : Option Value :=
  (nd.find? (·.1 == key)).map (·.2)

/-- Modelled from the spec: `get_node(id) → node | none` (spec section 4.1). -/
def SymbolGraph.get_node (g : SymbolGraph) (nid : String) : Option NodeData :=
  (g.nodes.find? (·.1 == nid)).map (·.2)

/-- Modelled from the spec: `find_all_nodes() → set<id>` (spec section 4.1). -/
def SymbolGraph.find_all_nodes (g : SymbolGraph) : Finset String :=
  (g.nodes.map (·.1)).toFinset

/-- Edge-type filter of a neighbour lookup: `none` means every edge type
matches (spec section 4.1). -/
def edgeTypeMatches : Option String → Edge → Bool
  | none, _ => true
  | some t, e => e.type == t

/-- Modelled from the spec: `get_neighbors(id, edge_type?, direction)` (spec
section 4.1): with direction `out`, the targets of matching edges whose
source is `id`; with direction `in`, the sources of matching edges whose
target is `id`.  A present empty-string edge type matches only edges typed
`""` (the sources never produce one for a well-formed condition). -/
def SymbolGraph.get_neighbors (g : SymbolGraph) (nid : String) (etype : Option String)
    (dir : Direction) : Finset String :=
  match dir with
  | .outDir =>
      ((g.edges.filter (fun e => e.source == nid && edgeTypeMatches etype e)).map (·.target)).toFinset
  | .inDir =>
      ((g.edges.filter (fun e => e.target == nid && edgeTypeMatches etype e)).map (·.source)).toFinset

/-- Every id the graph can ever mention: node ids together with edge
endpoints.  This is the finite universe that bounds the BFS walk. -/
def SymbolGraph.allIds (g : SymbolGraph) : Finset String :=
  (g.nodes.map (·.1)).toFinset ∪ (g.edges.map (·.source)).toFinset ∪
    (g.edges.map (·.target)).toFinset

/-- Deterministic iteration order over a Python set of id strings (Python's
set iteration order is unspecified; every property proved here is
order-independent). -/
def idList (s : Finset String) : List String := s.sort (· ≤ ·)

theorem mem_idList (s : Finset String) (x : String) : x ∈ idList s ↔ x ∈ s :=
  Finset.mem_sort _

theorem idList_nodup (s : Finset String) : (idList s).Nodup :=
  Finset.sort_nodup _ _

theorem get_neighbors_subset_allIds (g : SymbolGraph) (nid : String) (etype : Option String)
    (dir : Direction) : g.get_neighbors nid etype dir ⊆ g.allIds := by
  intro x hx
  unfold SymbolGraph.get_neighbors at hx
  unfold SymbolGraph.allIds
  cases dir <;>
    · simp only [List.mem_toFinset, List.mem_map, List.mem_filter] at hx
      obtain ⟨e, ⟨he, _⟩, hex⟩ := hx
      simp only [Finset.mem_union, List.mem_toFinset, List.mem_map]
      subst hex
      first
        | exact Or.inr ⟨e, he, rfl⟩
        | exact Or.inl (Or.inr ⟨e, he, rfl⟩)

/-- Union of `get_neighbors` over a list of edge types, in order: the
`for etype in edge_types` loops of `_filter_by_property`. -/
def neighborsVia (g : SymbolGraph) (etypes : List String) (dir : Direction) (nid : String) :
    Finset String :=
  etypes.foldl (fun acc t => acc ∪ g.get_neighbors nid (some t) dir) ∅

theorem mem_neighborsVia_aux (g : SymbolGraph) (dir : Direction) (nid x : String) :
    ∀ (l : List String) (acc : Finset String),
      (x ∈ l.foldl (fun acc t => acc ∪ g.get_neighbors nid (some t) dir) acc ↔
        x ∈ acc ∨ ∃ t ∈ l, x ∈ g.get_neighbors nid (some t) dir) := by
  intro l
  induction l with
  | nil => intro acc; simp
  | cons t rest ih =>
      intro acc
      rw [List.foldl_cons, ih]
      simp only [Finset.mem_union, List.mem_cons]
      constructor
      · rintro (⟨h | h⟩ | ⟨u, hu, hx⟩)
        · exact Or.inl h
        · exact Or.inr ⟨t, Or.inl rfl, h⟩
        · exact Or.inr ⟨u, Or.inr hu, hx⟩
      · rintro (h | ⟨u, (rfl | hu), hx⟩)
        · exact Or.inl (Or.inl h)
        · exact Or.inl (Or.inr hx)
        · exact Or.inr ⟨u, hu, hx⟩

theorem mem_neighborsVia (g : SymbolGraph) (etypes : List String) (dir : Direction)
    (nid x : String) :
    x ∈ neighborsVia g etypes dir nid ↔ ∃ t ∈ etypes, x ∈ g.get_neighbors nid (some t) dir := by
  unfold neighborsVia
  rw [mem_neighborsVia_aux]
  simp

theorem neighborsVia_subset_allIds (g : SymbolGraph) (etypes : List String) (dir : Direction)
    (nid : String) : neighborsVia g etypes dir nid ⊆ g.allIds := by
  intro x hx
  obtain ⟨t, _, hx⟩ := (mem_neighborsVia g etypes dir nid x).mp hx
  exact get_neighbors_subset_allIds g nid (some t) dir hx

theorem bfs_step_decreasing (g : SymbolGraph) (etypes : List String) (dir : Direction)
    (visited : Finset String) (cur : String) (q : List String) :
    (g.allIds \ (visited ∪ (((idList (neighborsVia g etypes dir cur)).filter
        (fun x => !decide (x ∈ visited))).dedup).toFinset)).card
      + (q ++ ((idList (neighborsVia g etypes dir cur)).filter
        (fun x => !decide (x ∈ visited))).dedup).length
    < (g.allIds \ visited).card + (cur :: q).length := by
  set F := ((idList (neighborsVia g etypes dir cur)).filter
    (fun x => !decide (x ∈ visited))).dedup with hF
  have hnodup : F.Nodup := List.nodup_dedup _
  have hsub : F.toFinset ⊆ g.allIds \ visited := by
    intro x hx
    rw [List.mem_toFinset, hF, List.mem_dedup, List.mem_filter] at hx
    obtain ⟨hmem, hnv⟩ := hx
    rw [Finset.mem_sdiff]
    refine ⟨neighborsVia_subset_allIds g etypes dir cur ((mem_idList _ _).mp hmem), ?_⟩
    simpa using hnv
  have hcard : F.toFinset.card = F.length := List.toFinset_card_of_nodup hnodup
  have hsdiff : g.allIds \ (visited ∪ F.toFinset) = (g.allIds \ visited) \ F.toFinset := by
    ext x
    simp only [Finset.mem_sdiff, Finset.mem_union]
    tauto
  have hsplit : (g.allIds \ (visited ∪ F.toFinset)).card
      = (g.allIds \ visited).card - F.toFinset.card := by
    rw [hsdiff, Finset.card_sdiff hsub]
  have hle : F.toFinset.card ≤ (g.allIds \ visited).card := Finset.card_le_card hsub
  rw [hsplit, List.length_append, List.length_cons]
  omega

/-- The `while q:` BFS loop of the `superclass` traversal in
`_filter_by_property`: pop the queue head, enqueue its not-yet-visited
neighbours along the given edge types and record them visited, returning the
visited set when the queue empties.  The visited set makes the walk
terminate on cyclic graphs. -/
def bfsAux (g : SymbolGraph) (etypes : List String) (dir : Direction) :
    List String → Finset String → Finset String
  | [], visited => visited
  | cur :: q, visited =>
      bfsAux g etypes dir
        (q ++ ((idList (neighborsVia g etypes dir cur)).filter
          (fun x => !decide (x ∈ visited))).dedup)
        (visited ∪ (((idList (neighborsVia g etypes dir cur)).filter
          (fun x => !decide (x ∈ visited))).dedup).toFinset)
termination_by q visited => (g.allIds \ visited).card + q.length
decreasing_by exact bfs_step_decreasing g etypes dir visited cur q

/-- The full `superclass` transitive walk: queue and visited set both start
as the currently-reached node set (`q = list(nodes_to_check_ids);
visited_ids = set(q)`). -/
def bfsClosure (g : SymbolGraph) (etypes : List String) (dir : Direction)
    (start : Finset String) : Finset String :=
  bfsAux g etypes dir (idList start) start

/-- One traversal step of `_filter_by_property`, realising `self.path_map`:
`parent` is one `CONTAINS` hop inward, `child` one `CONTAINS` hop outward,
`superclass` the BFS closure along `INHERITS_FROM` / `CONFORMS_TO` outward;
an unknown step name empties the set (and an empty set stays empty through
the remaining fold steps, matching the `break`). -/
def pathStep (g : SymbolGraph) (acc : Finset String) (key : String) : Finset String :=
  if key == "superclass" then bfsClosure g ["INHERITS_FROM", "CONFORMS_TO"] .outDir acc
  else if key == "parent" then acc.biUnion (fun nid => g.get_neighbors nid (some "CONTAINS") .inDir)
  else if key == "child" then acc.biUnion (fun nid => g.get_neighbors nid (some "CONTAINS") .outDir)
  else ∅

/-- The terminal node set of a property condition for one candidate: fold the
traversal steps starting from the singleton `nodes_to_check_ids = {node_id}`. -/
def terminalSet (g : SymbolGraph) (traversal : List String) (nid : String) : Finset String :=
  traversal.foldl (pathStep g) {nid}

/-- The check one terminal node performs for its candidate, mirroring the
final loop of `_filter_by_property`: ids without a node record, and nodes
whose attribute dict is empty, are skipped (`if not final_node: continue`,
Python falsiness); otherwise the attribute value is tested. -/
def nodeSatisfies (g : SymbolGraph) (target_prop operator : String) (value : Value)
    (fid : String) : Bool :=
  match g.get_node fid with
  | none => false
  | some nd => !nd.isEmpty && checkValueB (attrGet nd target_prop) operator value

/-- The parse phase of `_filter_by_property`: whitespace-split into
`path OP value` (fewer than three parts fails), split the path on dots
(fewer than two components fails), drop the leading variable, take the last
component as the attribute, the middle as the traversal path, and parse the
value text.  Returns `(traversal, attribute, operator, value)`. -/
def propParts (condition : String) : Option (List String × String × String × Value) :=
  if (pySplitWs condition).length < 3 then none
  else if (dotSplit ((pySplitWs condition).getD 0 "")).length < 2 then none
  else some (((dotSplit ((pySplitWs condition).getD 0 "")).drop 1).dropLast,
             ((dotSplit ((pySplitWs condition).getD 0 "")).drop 1).getLastD "",
             (pySplitWs condition).getD 1 "",
             parse_value (joinSpace ((pySplitWs condition).drop 2)))

/-- `PatternMatcher._filter_by_property`: parse the condition, then keep each
candidate with at least one satisfying terminal node. -/
def filter_by_property (g : SymbolGraph) (current : Finset String) (condition : String) :
    Finset String :=
  match propParts condition with
  | none => ∅
  | some (traversal, target_prop, operator, value) =>
      current.filter (fun nid =>
        ((idList (terminalSet g traversal nid)).any
          (nodeSatisfies g target_prop operator value)) = true)

/-- The direction and the two stripped sides of an edge condition, as
`_filter_by_edge` extracts them: a condition containing `-->` splits there
(outgoing), otherwise one containing `<--` splits there (incoming), anything
else fails (`return matching_ids` with the empty set). -/
def edgeParts (condition : String) : Option (Direction × String × String) :=
  if containsSub condition "-->" then
    some (.outDir, pyStrip (splitFirstTwo condition "-->").1,
      pyStrip (splitFirstTwo condition "-->").2)
  else if containsSub condition "<--" then
    some (.inDir, pyStrip (splitFirstTwo condition "<--").1,
      pyStrip (splitFirstTwo condition "<--").2)
  else none

/-- The edge-type extraction of `_filter_by_edge`: the left side's text after
its last `--` wins unless it is missing or strips to the empty string
(Python falsiness of `""`), in which case the right side's text before its
first `--` is used when present; `none` when neither side carries `--`. -/
def edgeTypeOf (left right : String) : Option String :=
  let e1 : Option String := if containsSub left "--" then some (pyStrip (afterLastSub left "--"))
    else none
  let e1Falsy : Bool := match e1 with
    | none => true
    | some t => t == ""
  if containsSub right "--" && e1Falsy then some (pyStrip (beforeFirstSub right "--")) else e1

/-- `PatternMatcher._filter_by_edge`: an existence test on the candidate
only — it survives iff some edge of the extracted type leaves (`-->`) or
enters (`<--`) it; the opposite endpoint is never inspected. -/
def filter_by_edge (g : SymbolGraph) (current : Finset String) (condition : String) :
    Finset String :=
  match edgeParts condition with
  | none => ∅
  | some (dir, left, right) =>
      current.filter (fun c => g.get_neighbors c (edgeTypeOf left right) dir ≠ ∅)

/-- One `where` condition as the matcher receives it from YAML: a dict
carrying `not_exists`, a condition string, or anything else (which
`_apply_single_condition` passes through unchanged). -/
inductive Condition where
  | cstr (s : String)
  | notExists (subs : List Condition)
  | cother

mutual

/-- `PatternMatcher._apply_single_condition`: `not_exists` removes the
candidates whose sub-pattern matches; a string dispatches on the presence of
an arrow to the edge or property filter; anything else is passed through. -/
def apply_single_condition (g : SymbolGraph) (current : Finset String) :
    Condition → Finset String
  | .notExists subs =>
      current \ current.filter (fun nid => matchNotExistsOne g {nid} subs = true)
  | .cstr s =>
      if containsSub s "-->" || containsSub s "<--" then filter_by_edge g current s
      else filter_by_property g current s
  | .cother => current

/-- The per-candidate loop body of `PatternMatcher._match_not_exists`: apply
the sub-conditions in order to the working set starting from the candidate's
singleton, giving up as soon as it is empty; the candidate is "invalid"
(matches the forbidden sub-pattern) iff every sub-condition ran and the
final set is nonempty. -/
def matchNotExistsOne (g : SymbolGraph) (temp : Finset String) : List Condition → Bool
  | [] => decide (temp ≠ ∅)
  | c :: rest =>
      if apply_single_condition g temp c = ∅ then false
      else matchNotExistsOne g (apply_single_condition g temp c) rest

end

/-- The `for condition in where_clauses` loop of `PatternMatcher.match`:
replace the candidate set by each condition's output, breaking once empty. -/
def applyWhere (g : SymbolGraph) : List Condition → Finset String → Finset String
  | [], s => s
  | c :: rest, s =>
      if apply_single_condition g s c = ∅ then apply_single_condition g s c
      else applyWhere g rest (apply_single_condition g s c)

/-- One entry of a rule's `pattern` list: a YAML dict that may carry a `find`
clause and/or a `where` list.  The `find` payload is its `target` lookup:
`none` models a missing or falsy target (absent key, `None`, `""`, falsy
empty dict), `some t` a present one — only its truthiness is ever used. -/
structure PatternItem where
  findVal : Option (Option String)
  whereVal : Option (List Condition)

/-- `PatternMatcher.match`: take the first `find` and the first `where`
entry, return the empty set without touching any condition when the find
clause is missing or its target falsy, and otherwise reduce the full node
set through the where conditions. -/
def matchPattern (g : SymbolGraph) (pattern : List PatternItem) : Finset String :=
  match pattern.findSome? (·.findVal) with
  | none => ∅
  | some none => ∅
  | some (some t) =>
      if t = "" then ∅
      else applyWhere g ((pattern.findSome? (·.whereVal)).getD []) g.find_all_nodes

/-- A reason entry `{rule_id, description}` of `AnalysisEngine`. -/
structure Reason where
  rule_id : String
  description : String
deriving DecidableEq

/-- One rule as `AnalysisEngine.run` consumes it: `pattern` is `none` when
the YAML key is missing (`rule.get('pattern')`); an empty list is also
skipped by Python falsiness. -/
structure Rule where
  id : String
  description : String
  pattern : Option (List PatternItem)

/-- The dict-update step of `AnalysisEngine.run`: append a reason to the
symbol's list, creating the entry on first match.  The accumulator models
the insertion-ordered dict `excluded_symbols`. -/
def addReason (m : List (String × List Reason)) (sid : String) (r : Reason) :
    List (String × List Reason) :=
  if m.any (·.1 == sid) then
    m.map (fun p => if p.1 == sid then (p.1, p.2 ++ [r]) else p)
  else m ++ [(sid, [r])]

/-- The body of `AnalysisEngine.run`'s rule loop: skip a rule whose
`pattern` is missing or empty (Python falsiness of `rule.get('pattern')`),
otherwise record a reason for every matched symbol. -/
def runStep (g : SymbolGraph) (acc : List (String × List Reason)) (rule : Rule) :
    List (String × List Reason) :=
  match rule.pattern with
  | none => acc
  | some pat =>
      if pat.isEmpty then acc
      else (idList (matchPattern g pat)).foldl
        (fun a sid => addReason a sid ⟨rule.id, rule.description⟩) acc

/-- `AnalysisEngine.run`: fold the rules in declaration order over the
initially empty accumulator. -/
def runRules (g : SymbolGraph) (rules : List Rule) : List (String × List Reason) :=
  rules.foldl (runStep g) []

/-- One emitted record of `AnalysisEngine.get_results`. -/
structure ResultRecord where
  name : Option Value
  kind : Option Value
  location : Option Value
  reasons : List Reason

/-- `AnalysisEngine.get_results`: one record per accumulated symbol whose id
resolves to a truthy node record — the guard is `if symbol_data:`, Python
dict falsiness, so an id whose node record is an *empty* dict is silently
dropped exactly like an id with no node record at all. -/
def get_results (g : SymbolGraph) (excluded : List (String × List Reason)) :
    List ResultRecord :=
  excluded.filterMap (fun p =>
    (g.get_node p.1).bind (fun nd =>
      if nd.isEmpty then none
      else some ⟨attrGet nd "name", attrGet nd "kind", attrGet nd "location", p.2⟩))

/-- Spec section 3 node invariant: `name` and `kind` are present on every
node (so no node's attribute dict is empty). -/
def WellFormed (g : SymbolGraph) : Prop :=
  ∀ p ∈ g.nodes, (attrGet p.2 "name").isSome = true ∧ (attrGet p.2 "kind").isSome = true

/-! ### Basic lemmas about the condition evaluator -/

theorem filter_by_edge_on_empty (g : SymbolGraph) (s : String) : filter_by_edge g ∅ s = ∅ := by
  unfold filter_by_edge
  cases h : edgeParts s with
  | none => rfl
  | some d =>
      obtain ⟨dir, l, r⟩ := d
      simp

theorem filter_by_property_on_empty (g : SymbolGraph) (s : String) :
    filter_by_property g ∅ s = ∅ := by
  unfold filter_by_property
  cases h : propParts s with
  | none => rfl
  | some d =>
      obtain ⟨tr, tp, op, v⟩ := d
      simp

theorem apply_single_condition_on_empty (g : SymbolGraph) (c : Condition) :
    apply_single_condition g ∅ c = ∅ := by
  cases c with
  | notExists subs => simp [apply_single_condition]
  | cstr s =>
      rw [apply_single_condition]
      by_cases h : (containsSub s "-->" || containsSub s "<--") = true
      · rw [if_pos h]
        exact filter_by_edge_on_empty g s
      · rw [if_neg h]
        exact filter_by_property_on_empty g s
  | cother => rfl

theorem foldl_apply_on_empty (g : SymbolGraph) (l : List Condition) :
    l.foldl (apply_single_condition g) ∅ = ∅ := by
  induction l with
  | nil => rfl
  | cons c rest ih => rw [List.foldl_cons, apply_single_condition_on_empty]; exact ih

theorem matchNotExistsOne_iff (g : SymbolGraph) (l : List Condition) :
    ∀ (s : Finset String),
      matchNotExistsOne g s l = true ↔ l.foldl (apply_single_condition g) s ≠ ∅ := by
  induction l with
  | nil =>
      intro s
      simp [matchNotExistsOne]
  | cons c rest ih =>
      intro s
      rw [matchNotExistsOne]
      by_cases h : apply_single_condition g s c = ∅
      · rw [if_pos h]
        simp only [List.foldl_cons, h, foldl_apply_on_empty]
        simp
      · rw [if_neg h, List.foldl_cons]
        exact ih _

theorem applyWhere_on_empty (g : SymbolGraph) (l : List Condition) : applyWhere g l ∅ = ∅ := by
  cases l with
  | nil => rfl
  | cons c rest =>
      rw [applyWhere, apply_single_condition_on_empty]
      simp

/-! ### Claim theorems (first group) -/

/-- C2: for every candidate set `C` and condition `{not_exists: L}`, the
evaluator returns exactly `C` minus those candidates `c` for which applying
the sub-conditions of `L` in their listed order to the singleton `{c}`
leaves a non-empty set; the result is always a subset of `C`. -/
theorem not_exists_is_set_difference (g : SymbolGraph) (C : Finset String)
    (subs : List Condition) :
    (∀ c : String, c ∈ apply_single_condition g C (.notExists subs) ↔
      c ∈ C ∧ ¬ (subs.foldl (apply_single_condition g) {c}).Nonempty)
    ∧ apply_single_condition g C (.notExists subs) ⊆ C := by
  constructor
  · intro c
    rw [apply_single_condition]
    simp only [Finset.mem_sdiff, Finset.mem_filter]
    rw [Finset.nonempty_iff_ne_empty, ← matchNotExistsOne_iff g subs {c}]
    constructor
    · rintro ⟨hc, hn⟩
      exact ⟨hc, fun hm => hn ⟨hc, hm⟩⟩
    · rintro ⟨hc, hn⟩
      exact ⟨hc, fun hmem => hn hmem.2⟩
  · intro c hc
    rw [apply_single_condition] at hc
    exact (Finset.mem_sdiff.mp hc).1

/-- C9: `{not_exists: []}` (an empty sub-condition list) removes every
candidate: each candidate's singleton working set survives the zero
sub-conditions nonempty, so every candidate counts as a forbidden match and
the evaluator returns the empty set. -/
theorem not_exists_empty_list_clears (g : SymbolGraph) (C : Finset String) :
    apply_single_condition g C (.notExists []) = ∅ := by
  have hall : ∀ x ∈ C, matchNotExistsOne g ({x} : Finset String) [] = true := by
    intro x _
    simp [matchNotExistsOne]
  rw [apply_single_condition]
  rw [Finset.filter_true_of_mem hall, Finset.sdiff_self]

/-- C10: a pattern with no `find` clause, or whose `find` clause has a
missing or falsy `target`, matches nothing: `PatternMatcher.match` returns
the empty set without consulting any `where` condition. -/
theorem malformed_pattern_matches_nothing (g : SymbolGraph) (pattern : List PatternItem) :
    (pattern.findSome? (·.findVal) = none → matchPattern g pattern = ∅)
    ∧ (pattern.findSome? (·.findVal) = some none → matchPattern g pattern = ∅)
    ∧ (pattern.findSome? (·.findVal) = some (some "") → matchPattern g pattern = ∅) := by
  refine ⟨fun h => ?_, fun h => ?_, fun h => ?_⟩ <;> unfold matchPattern <;> rw [h] <;> simp

theorem malformed_pattern_matches_nothing_witness :
    (([] : List PatternItem).findSome? (·.findVal) = none)
    ∧ matchPattern ⟨[], []⟩ [] = ∅ :=
  ⟨rfl, (malformed_pattern_matches_nothing ⟨[], []⟩ []).1 rfl⟩

/-- C7 (recording the code bug): `_check_value` is *not* total — with a
string property value, operator `starts_with`, and a non-string right-hand
value, the Python raises `TypeError` (`str.startswith` rejects an `int`
argument), where the spec says any type mismatch yields false.  Alongside:
the two neighbouring well-typed evaluations behave as specified. -/
theorem check_value_starts_with_type_error :
    check_value (some (.vstr "Foo")) "starts_with" (.vint 5) = .error ()
    ∧ check_value (some (.vstr "Foo")) "starts_with" (.vstr "Fo") = .ok true
    ∧ check_value (some (.vint 3)) "starts_with" (.vstr "Fo") = .ok false :=
  ⟨rfl, rfl, rfl⟩

/-- C5: with a truthy `find` target, the matcher starts from the full node
set and folds the `where` conditions in order; an empty (or absent) `where`
list returns the full node set; and once the working set turns empty the
remaining conditions leave the result unchanged (the loop breaks). -/
theorem find_where_pipeline (g : SymbolGraph) (pattern : List PatternItem) (t : String)
    (hfind : pattern.findSome? (·.findVal) = some (some t)) (ht : t ≠ "") :
    matchPattern g pattern
      = applyWhere g ((pattern.findSome? (·.whereVal)).getD []) g.find_all_nodes
    ∧ ((pattern.findSome? (·.whereVal)).getD [] = [] → matchPattern g pattern = g.find_all_nodes)
    ∧ (∀ (l1 l2 : List Condition) (S : Finset String),
        applyWhere g l1 S = ∅ → applyWhere g (l1 ++ l2) S = applyWhere g l1 S) := by
  have hmain : matchPattern g pattern
      = applyWhere g ((pattern.findSome? (·.whereVal)).getD []) g.find_all_nodes := by
    unfold matchPattern
    rw [hfind]
    simp [ht]
  refine ⟨hmain, fun hw => ?_, ?_⟩
  · rw [hmain, hw]
    rfl
  · intro l1 l2 S
    induction l1 generalizing S with
    | nil =>
        intro h0
        simp only [applyWhere] at h0
        subst h0
        simp only [List.nil_append, applyWhere]
        exact applyWhere_on_empty g l2
    | cons c rest ih =>
        intro h0
        rw [List.cons_append, applyWhere]
        rw [applyWhere] at h0
        by_cases hc : apply_single_condition g S c = ∅
        · rw [if_pos hc] at h0 ⊢
          rw [applyWhere, if_pos hc]
        · rw [if_neg hc] at h0 ⊢
          rw [applyWhere, if_neg hc]
          exact ih _ h0

theorem find_where_pipeline_witness :
    (([⟨some (some "S"), none⟩] : List PatternItem).findSome? (·.findVal) = some (some "S"))
    ∧ ("S" : String) ≠ ""
    ∧ matchPattern ⟨[("n1", [("name", Value.vstr "Foo")])], []⟩ [⟨some (some "S"), none⟩]
        = SymbolGraph.find_all_nodes ⟨[("n1", [("name", Value.vstr "Foo")])], []⟩ :=
  ⟨rfl, by decide, (find_where_pipeline ⟨[("n1", [("name", Value.vstr "Foo")])], []⟩
    [⟨some (some "S"), none⟩] "S" rfl (by decide)).2.1 rfl⟩

theorem checkValueB_eq_true_iff (pv : Option Value) (op : String) (rv : Value) :
    checkValueB pv op rv = true ↔ check_value pv op rv = .ok true := by
  unfold checkValueB
  cases h : check_value pv op rv with
  | ok b => cases b <;> simp
  | error e => simp

theorem wf_node_not_isEmpty (g : SymbolGraph) (hwf : WellFormed g) (fid : String)
    (nd : NodeData) (h : g.get_node fid = some nd) : nd.isEmpty = false := by
  unfold SymbolGraph.get_node at h
  cases hf : g.nodes.find? (·.1 == fid) with
  | none => rw [hf] at h; simp at h
  | some p =>
      rw [hf] at h
      simp only [Option.map_some'] at h
      have hnd : nd = p.2 := (Option.some.injEq _ _).mp h |>.symm
      subst hnd
      have hmem := List.mem_of_find?_eq_some hf
      have hname := (hwf p hmem).1
      cases hcase : p.2 with
      | nil => rw [hcase] at hname; simp [attrGet] at hname
      | cons a t => simp [hcase]

/-- C4: an edge condition is an existence test on the candidate alone — the
candidate survives iff at least one edge of the extracted type leaves
(`-->`) or enters (`<--`) it, the opposite endpoint never being consulted;
the type comes from the left side's `--TYPE` decoration when that strips to
a non-empty name, else from the right side's; with no decoration on either
side any edge in the direction suffices. -/
theorem edge_condition_semantics (g : SymbolGraph) (C : Finset String) (cond : String)
    (dir : Direction) (left right : String)
    (h : edgeParts cond = some (dir, left, right)) :
    (∀ c : String, c ∈ filter_by_edge g C cond ↔
      c ∈ C ∧ g.get_neighbors c (edgeTypeOf left right) dir ≠ ∅)
    ∧ (containsSub left "--" = true → pyStrip (afterLastSub left "--") ≠ "" →
        edgeTypeOf left right = some (pyStrip (afterLastSub left "--")))
    ∧ (containsSub left "--" = false → containsSub right "--" = true →
        edgeTypeOf left right = some (pyStrip (beforeFirstSub right "--")))
    ∧ (containsSub left "--" = false → containsSub right "--" = false →
        edgeTypeOf left right = none)
    ∧ (∀ c : String,
        (g.get_neighbors c none .outDir ≠ ∅ ↔ ∃ e ∈ g.edges, e.source = c)
        ∧ (g.get_neighbors c none .inDir ≠ ∅ ↔ ∃ e ∈ g.edges, e.target = c)) := by
  refine ⟨?_, ?_, ?_, ?_, ?_⟩
  · intro c
    unfold filter_by_edge
    rw [h]
    simp [Finset.mem_filter]
  · intro hl hne
    have hb : (pyStrip (afterLastSub left "--") == "") = false := beq_eq_false_iff_ne.mpr hne
    simp [edgeTypeOf, hl, hb]
  · intro hl hr
    simp [edgeTypeOf, hl, hr]
  · intro hl hr
    simp [edgeTypeOf, hl, hr]
  · intro c
    constructor
    · rw [← Finset.nonempty_iff_ne_empty]
      unfold SymbolGraph.get_neighbors
      simp only [Finset.Nonempty, List.mem_toFinset, List.mem_map, List.mem_filter,
        Bool.and_eq_true, beq_iff_eq, edgeTypeMatches, and_true]
      constructor
      · rintro ⟨x, e, ⟨he, hc⟩, hex⟩
        exact ⟨e, he, hc⟩
      · rintro ⟨e, he, hc⟩
        exact ⟨e.target, e, ⟨he, hc⟩, rfl⟩
    · rw [← Finset.nonempty_iff_ne_empty]
      unfold SymbolGraph.get_neighbors
      simp only [Finset.Nonempty, List.mem_toFinset, List.mem_map, List.mem_filter,
        Bool.and_eq_true, beq_iff_eq, edgeTypeMatches, and_true]
      constructor
      · rintro ⟨x, e, ⟨he, hc⟩, hex⟩
        exact ⟨e, he, hc⟩
      · rintro ⟨e, he, hc⟩
        exact ⟨e.source, e, ⟨he, hc⟩, rfl⟩

theorem edge_condition_semantics_witness :
    edgeParts "S --OVERRIDES--> X" = some (.outDir, "S --OVERRIDES", "X")
    ∧ containsSub "S --OVERRIDES" "--" = true
    ∧ pyStrip (afterLastSub "S --OVERRIDES" "--") ≠ ""
    ∧ edgeTypeOf "S --OVERRIDES" "X" = some "OVERRIDES" := by
  have h := (edge_condition_semantics ⟨[], []⟩ ∅ "S --OVERRIDES--> X" .outDir
    "S --OVERRIDES" "X" rfl).2.1 (by decide) (by decide)
  exact ⟨rfl, by decide, by decide, h.trans (by decide)⟩

/-- C3: for a parsed property condition, a candidate is kept iff at least
one node of its terminal set exists in the graph and has an attribute value
that satisfies the operator (the well-formedness hypothesis is spec section
3's invariant that every node carries `name` and `kind`, which rules out the
empty attribute dicts that Python falsiness would skip); and a missing
(`none`) attribute satisfies `!=` regardless of the right-hand value while
failing `==` and every other operator. -/
theorem property_condition_semantics (g : SymbolGraph) (hwf : WellFormed g)
    (C : Finset String) (cond : String)
    (traversal : List String) (attr operator : String) (value : Value)
    (hp : propParts cond = some (traversal, attr, operator, value)) :
    (∀ c : String, c ∈ filter_by_property g C cond ↔
      c ∈ C ∧ ∃ fid ∈ terminalSet g traversal c, ∃ nd, g.get_node fid = some nd ∧
        check_value (attrGet nd attr) operator value = .ok true)
    ∧ (∀ v : Value, check_value none "!=" v = .ok true)
    ∧ (∀ (op : String) (v : Value), op ≠ "!=" → check_value none op v = .ok false) := by
  refine ⟨?_, ?_, ?_⟩
  · intro c
    unfold filter_by_property
    rw [hp]
    rw [Finset.mem_filter]
    constructor
    · rintro ⟨hc, hany⟩
      rw [List.any_eq_true] at hany
      obtain ⟨fid, hfid, hsat⟩ := hany
      rw [mem_idList] at hfid
      refine ⟨hc, fid, hfid, ?_⟩
      unfold nodeSatisfies at hsat
      cases hn : g.get_node fid with
      | none => rw [hn] at hsat; simp at hsat
      | some nd =>
          rw [hn] at hsat
          rw [Bool.and_eq_true] at hsat
          exact ⟨nd, rfl, (checkValueB_eq_true_iff _ _ _).mp hsat.2⟩
    · rintro ⟨hc, fid, hfid, nd, hn, hcv⟩
      refine ⟨hc, ?_⟩
      rw [List.any_eq_true]
      refine ⟨fid, (mem_idList _ _).mpr hfid, ?_⟩
      unfold nodeSatisfies
      rw [hn, Bool.and_eq_true]
      exact ⟨by rw [wf_node_not_isEmpty g hwf fid nd hn]; rfl,
        (checkValueB_eq_true_iff _ _ _).mpr hcv⟩
  · intro v
    rfl
  · intro op v hne
    show Except.ok (op == "!=") = Except.ok false
    rw [beq_eq_false_iff_ne.mpr hne]

theorem property_condition_semantics_witness :
    WellFormed ⟨[("n1", [("name", Value.vstr "Foo"), ("kind", Value.vstr "class")])], []⟩
    ∧ propParts "S.kind == \x27class\x27" = some ([], "kind", "==", Value.vstr "class")
    ∧ ("==" : String) ≠ "!="
    ∧ check_value none "==" (Value.vstr "public") = .ok false := by
  have hp : propParts "S.kind == \x27class\x27" = some ([], "kind", "==", Value.vstr "class") := by
    rw [propParts]
    simp only [parse_value]
    rw [parseValueChars.eq_def]
    rfl
  have h := (property_condition_semantics
    ⟨[("n1", [("name", Value.vstr "Foo"), ("kind", Value.vstr "class")])], []⟩
    (by unfold WellFormed; decide)
    ∅ "S.kind == \x27class\x27" [] "kind" "==" (Value.vstr "class") hp).2.2
    "==" (Value.vstr "public") (by decide)
  exact ⟨by unfold WellFormed; decide, hp, by decide, h⟩

/-! ### BFS correctness: the `superclass` walk computes reachability -/

/-- One step of the `superclass` walk: `b` is a neighbour of `a` along one
of the walked edge types. -/
def ReachStep (g : SymbolGraph) (etypes : List String) (dir : Direction) (a b : String) : Prop :=
  b ∈ neighborsVia g etypes dir a

/-- Reachability along `ReachStep`: its reflexive–transitive closure. -/
def Reaches (g : SymbolGraph) (etypes : List String) (dir : Direction) : String → String → Prop :=
  Relation.ReflTransGen (ReachStep g etypes dir)

theorem bfsAux_mono (g : SymbolGraph) (etypes : List String) (dir : Direction) :
    ∀ (q : List String) (visited : Finset String), visited ⊆ bfsAux g etypes dir q visited := by
  intro q visited
  induction q, visited using bfsAux.induct g etypes dir with
  | case1 visited => rw [bfsAux]
  | case2 cur q visited ih =>
      rw [bfsAux]
      exact fun x hx => ih (Finset.mem_union_left _ hx)

theorem bfsAux_sound (g : SymbolGraph) (etypes : List String) (dir : Direction)
    (S : Finset String) :
    ∀ (q : List String) (visited : Finset String),
      (∀ x ∈ q, x ∈ visited) →
      (∀ x ∈ visited, ∃ s ∈ S, Reaches g etypes dir s x) →
      ∀ x ∈ bfsAux g etypes dir q visited, ∃ s ∈ S, Reaches g etypes dir s x := by
  intro q visited
  induction q, visited using bfsAux.induct g etypes dir with
  | case1 visited =>
      intro _ hv
      rw [bfsAux]
      exact hv
  | case2 cur q visited ih =>
      intro hq hv
      rw [bfsAux]
      apply ih
      · intro x hx
        rcases List.mem_append.mp hx with h | h
        · exact Finset.mem_union_left _ (hq x (List.mem_cons_of_mem _ h))
        · exact Finset.mem_union_right _ (List.mem_toFinset.mpr h)
      · intro x hx
        rcases Finset.mem_union.mp hx with h | h
        · exact hv x h
        · rw [List.mem_toFinset, List.mem_dedup, List.mem_filter] at h
          obtain ⟨hmem, _⟩ := h
          obtain ⟨s, hs, hreach⟩ := hv cur (hq cur (List.mem_cons_self _ _))
          exact ⟨s, hs, hreach.tail ((mem_idList _ _).mp hmem)⟩

theorem bfsAux_closed (g : SymbolGraph) (etypes : List String) (dir : Direction) :
    ∀ (q : List String) (visited : Finset String),
      (∀ x ∈ q, x ∈ visited) →
      (∀ x ∈ visited, x ∉ q → ∀ y ∈ neighborsVia g etypes dir x, y ∈ visited) →
      ∀ x ∈ bfsAux g etypes dir q visited, ∀ y ∈ neighborsVia g etypes dir x,
        y ∈ bfsAux g etypes dir q visited := by
  intro q visited
  induction q, visited using bfsAux.induct g etypes dir with
  | case1 visited =>
      intro _ hcl
      rw [bfsAux]
      intro x hx y hy
      exact hcl x hx (List.not_mem_nil x) y hy
  | case2 cur q visited ih =>
      intro hq hcl
      rw [bfsAux]
      apply ih
      · intro x hx
        rcases List.mem_append.mp hx with h | h
        · exact Finset.mem_union_left _ (hq x (List.mem_cons_of_mem _ h))
        · exact Finset.mem_union_right _ (List.mem_toFinset.mpr h)
      · intro x hx hnq y hy
        rcases Finset.mem_union.mp hx with hxv | hxf
        · by_cases hxc : x = cur
          · subst hxc
            by_cases hyv : y ∈ visited
            · exact Finset.mem_union_left _ hyv
            · refine Finset.mem_union_right _ ?_
              rw [List.mem_toFinset, List.mem_dedup, List.mem_filter]
              exact ⟨(mem_idList _ _).mpr hy, by simpa using hyv⟩
          · have hxq : x ∉ cur :: q := by
              intro hc
              rcases List.mem_cons.mp hc with h | h
              · exact hxc h
              · exact hnq (List.mem_append.mpr (Or.inl h))
            exact Finset.mem_union_left _ (hcl x hxv hxq y hy)
        · exact absurd (List.mem_append.mpr (Or.inr (List.mem_toFinset.mp hxf))) hnq

theorem bfsClosure_eq_reachable (g : SymbolGraph) (etypes : List String) (dir : Direction)
    (S : Finset String) (x : String) :
    x ∈ bfsClosure g etypes dir S ↔ ∃ s ∈ S, Reaches g etypes dir s x := by
  unfold bfsClosure
  constructor
  · exact bfsAux_sound g etypes dir S (idList S) S
      (fun x hx => (mem_idList _ _).mp hx)
      (fun x hx => ⟨x, hx, Relation.ReflTransGen.refl⟩) x
  · rintro ⟨s, hs, hreach⟩
    induction hreach with
    | refl => exact bfsAux_mono g etypes dir _ _ hs
    | tail hab hbc ihr =>
        exact bfsAux_closed g etypes dir (idList S) S
          (fun x hx => (mem_idList _ _).mp hx)
          (fun x hx hnx _ _ => absurd ((mem_idList S x).mpr hx) hnx)
          _ ihr _ hbc

/-- C1: the `superclass` step computes, for any working set, exactly the
nodes reachable along outgoing `INHERITS_FROM` / `CONFORMS_TO` edges
(reflexive–transitive closure, by a BFS whose visited set makes it total on
cyclic graphs), and contains the whole starting set; for a condition whose
traversal path is `superclass` alone, the terminal set of a candidate is its
reachable set and contains the candidate itself; consequently
`S.superclass.name == 'NSObject'` keeps every candidate named `NSObject`
and every candidate from which a node named `NSObject` is reachable. -/
theorem superclass_walk_reachable (g : SymbolGraph) :
    (∀ (S : Finset String) (x : String),
      x ∈ pathStep g S "superclass" ↔
        ∃ s ∈ S, Reaches g ["INHERITS_FROM", "CONFORMS_TO"] .outDir s x)
    ∧ (∀ S : Finset String, S ⊆ pathStep g S "superclass")
    ∧ (∀ c x : String, x ∈ terminalSet g ["superclass"] c ↔
        Reaches g ["INHERITS_FROM", "CONFORMS_TO"] .outDir c x)
    ∧ (∀ c : String, c ∈ terminalSet g ["superclass"] c)
    ∧ (∀ (_hwf : WellFormed g) (C : Finset String) (n : String) (nd : NodeData),
        n ∈ C → g.get_node n = some nd → attrGet nd "name" = some (.vstr "NSObject") →
        n ∈ filter_by_property g C "S.superclass.name == \x27NSObject\x27")
    ∧ (∀ (_hwf : WellFormed g) (C : Finset String) (c n : String) (nd : NodeData),
        c ∈ C → Reaches g ["INHERITS_FROM", "CONFORMS_TO"] .outDir c n →
        g.get_node n = some nd → attrGet nd "name" = some (.vstr "NSObject") →
        c ∈ filter_by_property g C "S.superclass.name == \x27NSObject\x27") := by
  have hstep : ∀ (S : Finset String) (x : String),
      x ∈ pathStep g S "superclass" ↔
        ∃ s ∈ S, Reaches g ["INHERITS_FROM", "CONFORMS_TO"] .outDir s x := by
    intro S x
    unfold pathStep
    rw [if_pos (by decide)]
    exact bfsClosure_eq_reachable g _ _ S x
  have hsub : ∀ S : Finset String, S ⊆ pathStep g S "superclass" := by
    intro S x hx
    exact (hstep S x).mpr ⟨x, hx, Relation.ReflTransGen.refl⟩
  have hterm : ∀ c x : String, x ∈ terminalSet g ["superclass"] c ↔
      Reaches g ["INHERITS_FROM", "CONFORMS_TO"] .outDir c x := by
    intro c x
    unfold terminalSet
    rw [List.foldl_cons, List.foldl_nil, hstep]
    simp
  have hself : ∀ c : String, c ∈ terminalSet g ["superclass"] c := by
    intro c
    exact (hterm c c).mpr Relation.ReflTransGen.refl
  have hparse : propParts "S.superclass.name == \x27NSObject\x27"
      = some (["superclass"], "name", "==", Value.vstr "NSObject") := by
    rw [propParts]
    simp only [parse_value]
    rw [parseValueChars.eq_def]
    rfl
  have hkeep : ∀ (hwf : WellFormed g) (C : Finset String) (c n : String) (nd : NodeData),
      c ∈ C → Reaches g ["INHERITS_FROM", "CONFORMS_TO"] .outDir c n →
      g.get_node n = some nd → attrGet nd "name" = some (.vstr "NSObject") →
      c ∈ filter_by_property g C "S.superclass.name == \x27NSObject\x27" := by
    intro hwf C c n nd hc hreach hn hname
    refine ((property_condition_semantics g hwf C _ _ _ _ _ hparse).1 c).mpr
      ⟨hc, n, (hterm c n).mpr hreach, nd, hn, ?_⟩
    rw [hname]
    rfl
  exact ⟨hstep, hsub, hterm, hself,
    fun hwf C n nd hn hnode hname =>
      hkeep hwf C n n nd hn Relation.ReflTransGen.refl hnode hname,
    hkeep⟩

theorem superclass_walk_reachable_witness :
    WellFormed ⟨[("NSObject", [("name", Value.vstr "NSObject"), ("kind", Value.vstr "class")]),
                 ("A", [("name", Value.vstr "A"), ("kind", Value.vstr "class")])],
                [⟨"A", "NSObject", "INHERITS_FROM"⟩]⟩
    ∧ "NSObject" ∈
        filter_by_property
          ⟨[("NSObject", [("name", Value.vstr "NSObject"), ("kind", Value.vstr "class")]),
            ("A", [("name", Value.vstr "A"), ("kind", Value.vstr "class")])],
           [⟨"A", "NSObject", "INHERITS_FROM"⟩]⟩
          {"NSObject", "A"} "S.superclass.name == \x27NSObject\x27" := by
  refine ⟨by unfold WellFormed; decide, ?_⟩
  refine (superclass_walk_reachable _).2.2.2.2.1 (by unfold WellFormed; decide)
    {"NSObject", "A"} "NSObject" [("name", Value.vstr "NSObject"), ("kind", Value.vstr "class")]
    (by decide) rfl rfl

/-! ### The engine's reason accumulator -/

/-- Lookup in the accumulator (Python `excluded_symbols.get(sid)`). -/
def reasonsOf (m : List (String × List Reason)) (sid : String) : Option (List Reason) :=
  (m.find? (·.1 == sid)).map (·.2)

/-- Whether a rule fires on a symbol: its pattern is present, non-empty, and
matches the symbol. -/
def ruleMatchesB (g : SymbolGraph) (rule : Rule) (sid : String) : Bool :=
  match rule.pattern with
  | some pat => !pat.isEmpty && decide (sid ∈ matchPattern g pat)
  | none => false

/-- The reason list the engine should produce for a symbol: one
`{rule_id, description}` entry per firing rule, in declaration order. -/
def reasonsSpec (g : SymbolGraph) (rules : List Rule) (sid : String) : List Reason :=
  (rules.filter (fun rule => ruleMatchesB g rule sid)).map
    (fun rule => ⟨rule.id, rule.description⟩)

theorem addReason_keys (m : List (String × List Reason)) (sid : String) (r : Reason) :
    (addReason m sid r).map (·.1)
      = if m.any (·.1 == sid) then m.map (·.1) else m.map (·.1) ++ [sid] := by
  unfold addReason
  by_cases h : m.any (·.1 == sid) = true
  · rw [if_pos h, if_pos h, List.map_map]
    congr 1
    funext p
    by_cases hp : p.1 = sid
    · simp [hp]
    · simp [hp]
  · rw [if_neg h, if_neg h, List.map_append]
    simp

theorem mem_keys_addReason (m : List (String × List Reason)) (s sid : String) (r : Reason) :
    sid ∈ (addReason m s r).map (·.1) ↔ sid ∈ m.map (·.1) ∨ sid = s := by
  rw [addReason_keys]
  by_cases h : m.any (·.1 == s) = true
  · rw [if_pos h]
    have hs : s ∈ m.map (·.1) := by
      rw [List.any_eq_true] at h
      obtain ⟨p, hp, he⟩ := h
      exact List.mem_map.mpr ⟨p, hp, beq_iff_eq.mp he⟩
    constructor
    · exact Or.inl
    · rintro (h1 | rfl)
      · exact h1
      · exact hs
  · rw [if_neg h, List.mem_append, List.mem_singleton]

theorem addReason_keys_nodup (m : List (String × List Reason)) (s : String) (r : Reason)
    (h : (m.map (·.1)).Nodup) : ((addReason m s r).map (·.1)).Nodup := by
  rw [addReason_keys]
  by_cases hc : m.any (·.1 == s) = true
  · rw [if_pos hc]
    exact h
  · rw [if_neg hc]
    refine List.Nodup.append h (List.nodup_singleton s) ?_
    intro x hx hxs
    rw [List.mem_singleton] at hxs
    subst hxs
    obtain ⟨p, hp, hps⟩ := List.mem_map.mp hx
    exact hc (List.any_eq_true.mpr ⟨p, hp, beq_iff_eq.mpr hps⟩)

theorem addReason_cons_of_ne (q : String × List Reason) (t : List (String × List Reason))
    (s : String) (r : Reason) (hq : q.1 ≠ s) :
    addReason (q :: t) s r = q :: addReason t s r := by
  unfold addReason
  have hqb : (q.1 == s) = false := beq_eq_false_iff_ne.mpr hq
  have hany : ((q :: t).any (·.1 == s)) = (t.any (·.1 == s)) := by
    simp [List.any_cons, hqb]
  rw [hany]
  by_cases h : t.any (·.1 == s) = true
  · rw [if_pos h, if_pos h, List.map_cons]
    congr 1
    simp [hq]
  · rw [if_neg h, if_neg h, List.cons_append]

theorem reasonsOf_cons_of_ne (q : String × List Reason) (t : List (String × List Reason))
    (sid : String) (hq : q.1 ≠ sid) : reasonsOf (q :: t) sid = reasonsOf t sid := by
  unfold reasonsOf
  rw [List.find?_cons_of_neg]
  simp [hq]

theorem reasonsOf_cons_self (q : String × List Reason) (t : List (String × List Reason)) :
    reasonsOf (q :: t) q.1 = some q.2 := by
  unfold reasonsOf
  rw [List.find?_cons_of_pos]
  · rfl
  · exact beq_iff_eq.mpr rfl

theorem reasonsOf_map_touch_of_ne (s sid : String) (r : Reason) (hne : sid ≠ s) :
    ∀ (t : List (String × List Reason)),
      reasonsOf (t.map (fun p => if p.1 == s then (p.1, p.2 ++ [r]) else p)) sid
        = reasonsOf t sid := by
  intro t
  induction t with
  | nil => rfl
  | cons u v ih =>
      rw [List.map_cons]
      by_cases hu : u.1 = sid
      · have hus : u.1 ≠ s := fun he => hne (hu ▸ he)
        have : (if u.1 == s then (u.1, u.2 ++ [r]) else u) = u := by
          simp [hus]
        rw [this, ← hu, reasonsOf_cons_self, reasonsOf_cons_self]
      · have hkey : (if u.1 == s then (u.1, u.2 ++ [r]) else u).1 = u.1 := by
          by_cases hus : u.1 = s <;> simp [hus]
        rw [reasonsOf_cons_of_ne _ _ _ (by rw [hkey]; exact hu),
          reasonsOf_cons_of_ne _ _ _ hu]
        exact ih

theorem reasonsOf_addReason (m : List (String × List Reason)) (s sid : String) (r : Reason) :
    reasonsOf (addReason m s r) sid
      = if sid = s then some ((reasonsOf m sid).getD [] ++ [r]) else reasonsOf m sid := by
  induction m with
  | nil =>
      by_cases hss : sid = s
      · subst hss
        rw [if_pos rfl]
        exact reasonsOf_cons_self (sid, [r]) []
      · rw [if_neg hss]
        show reasonsOf [(s, [r])] sid = reasonsOf [] sid
        rw [reasonsOf_cons_of_ne _ _ _ (fun he => hss he.symm)]
  | cons q t ih =>
      by_cases hq : q.1 = s
      · -- the head already carries key `s`: the whole list is rewritten in place
        have hany : ((q :: t).any (·.1 == s)) = true :=
          List.any_eq_true.mpr ⟨q, List.mem_cons_self _ _, beq_iff_eq.mpr hq⟩
        unfold addReason
        rw [if_pos hany, List.map_cons]
        have hhead : (if q.1 == s then (q.1, q.2 ++ [r]) else q) = (q.1, q.2 ++ [r]) := by
          simp [hq]
        rw [hhead]
        by_cases hss : sid = s
        · subst hss
          rw [if_pos rfl, ← hq]
          have h2 : reasonsOf (q :: t) q.1 = some q.2 := reasonsOf_cons_self _ _
          rw [h2]
          exact reasonsOf_cons_self _ _
        · rw [if_neg hss]
          have hqsid : q.1 ≠ sid := fun he => hss ((he ▸ hq : sid = s))
          rw [reasonsOf_cons_of_ne _ _ _ (by exact hqsid),
            reasonsOf_cons_of_ne _ _ _ hqsid]
          exact reasonsOf_map_touch_of_ne s sid r hss t
      · rw [addReason_cons_of_ne q t s r hq]
        by_cases hqsid : q.1 = sid
        · have hss : sid ≠ s := fun he => hq (hqsid.trans he)
          rw [if_neg hss, ← hqsid, reasonsOf_cons_self, reasonsOf_cons_self]
        · rw [reasonsOf_cons_of_ne _ _ _ hqsid, reasonsOf_cons_of_ne _ _ _ hqsid, ih]

theorem addAll_lookup (r : Reason) (l : List String) (hl : l.Nodup) :
    ∀ (m : List (String × List Reason)) (sid : String),
      reasonsOf (l.foldl (fun a s => addReason a s r) m) sid
        = if sid ∈ l
            then some ((reasonsOf m sid).getD [] ++ [r])
            else reasonsOf m sid := by
  induction l with
  | nil =>
      intro m sid
      rw [if_neg (List.not_mem_nil sid)]
      rfl
  | cons s rest ih =>
      intro m sid
      have hsmem : s ∉ rest := (List.nodup_cons.mp hl).1
      have hrest : rest.Nodup := (List.nodup_cons.mp hl).2
      rw [List.foldl_cons, ih hrest]
      by_cases h1 : sid ∈ rest
      · rw [if_pos h1, if_pos (List.mem_cons_of_mem _ h1)]
        have hne : sid ≠ s := fun he => hsmem (he ▸ h1)
        rw [reasonsOf_addReason, if_neg hne]
      · rw [if_neg h1]
        by_cases h2 : sid = s
        · subst h2
          rw [if_pos (List.mem_cons_self _ _), reasonsOf_addReason, if_pos rfl]
        · rw [if_neg (fun hc => (List.mem_cons.mp hc).elim h2 h1), reasonsOf_addReason,
            if_neg h2]

theorem addAll_keys (r : Reason) (l : List String) :
    ∀ (m : List (String × List Reason)) (sid : String),
      sid ∈ (l.foldl (fun a s => addReason a s r) m).map (·.1) ↔
        sid ∈ m.map (·.1) ∨ sid ∈ l := by
  induction l with
  | nil =>
      intro m sid
      simp
  | cons s rest ih =>
      intro m sid
      rw [List.foldl_cons, ih, mem_keys_addReason]
      constructor
      · rintro (⟨h | rfl⟩ | h)
        · exact Or.inl h
        · exact Or.inr (List.mem_cons_self _ _)
        · exact Or.inr (List.mem_cons_of_mem _ h)
      · rintro (h | h)
        · exact Or.inl (Or.inl h)
        · rcases List.mem_cons.mp h with rfl | h'
          · exact Or.inl (Or.inr rfl)
          · exact Or.inr h'

theorem addAll_nodup (r : Reason) (l : List String) :
    ∀ (m : List (String × List Reason)), (m.map (·.1)).Nodup →
      ((l.foldl (fun a s => addReason a s r) m).map (·.1)).Nodup := by
  induction l with
  | nil => intro m hm; exact hm
  | cons s rest ih =>
      intro m hm
      rw [List.foldl_cons]
      exact ih _ (addReason_keys_nodup m s r hm)

theorem runStep_of_pattern_none (g : SymbolGraph) (rule : Rule)
    (acc : List (String × List Reason)) (h : rule.pattern = none) :
    runStep g acc rule = acc := by
  unfold runStep
  rw [h]

theorem runStep_of_pattern_some (g : SymbolGraph) (rule : Rule)
    (acc : List (String × List Reason)) (pat : List PatternItem)
    (h : rule.pattern = some pat) :
    runStep g acc rule
      = if pat.isEmpty then acc
        else (idList (matchPattern g pat)).foldl
          (fun a sid => addReason a sid ⟨rule.id, rule.description⟩) acc := by
  unfold runStep
  rw [h]

theorem ruleMatchesB_of_pattern_none (g : SymbolGraph) (rule : Rule) (sid : String)
    (h : rule.pattern = none) : ruleMatchesB g rule sid = false := by
  unfold ruleMatchesB
  rw [h]

theorem ruleMatchesB_of_pattern_some (g : SymbolGraph) (rule : Rule) (sid : String)
    (pat : List PatternItem) (h : rule.pattern = some pat) :
    ruleMatchesB g rule sid = (!pat.isEmpty && decide (sid ∈ matchPattern g pat)) := by
  unfold ruleMatchesB
  rw [h]

theorem runStep_lookup (g : SymbolGraph) (rule : Rule)
    (acc : List (String × List Reason)) (sid : String) :
    reasonsOf (runStep g acc rule) sid
      = if ruleMatchesB g rule sid
        then some ((reasonsOf acc sid).getD [] ++ [⟨rule.id, rule.description⟩])
        else reasonsOf acc sid := by
  cases hp : rule.pattern with
  | none =>
      rw [runStep_of_pattern_none g rule acc hp, ruleMatchesB_of_pattern_none g rule sid hp]
      rw [if_neg Bool.false_ne_true]
  | some pat =>
      rw [runStep_of_pattern_some g rule acc pat hp, ruleMatchesB_of_pattern_some g rule sid pat hp]
      by_cases hemp : pat.isEmpty = true
      · rw [if_pos hemp, if_neg (by simp [hemp])]
      · rw [if_neg hemp, addAll_lookup _ _ (idList_nodup _)]
        by_cases hmem : sid ∈ matchPattern g pat
        · rw [if_pos ((mem_idList _ _).mpr hmem), if_pos (by simp [hemp, hmem])]
        · rw [if_neg (fun hc => hmem ((mem_idList _ _).mp hc)),
            if_neg (by simp [hemp, hmem])]

theorem runStep_keys (g : SymbolGraph) (rule : Rule)
    (acc : List (String × List Reason)) (sid : String) :
    sid ∈ (runStep g acc rule).map (·.1) ↔
      sid ∈ acc.map (·.1) ∨ ruleMatchesB g rule sid = true := by
  cases hp : rule.pattern with
  | none =>
      rw [runStep_of_pattern_none g rule acc hp, ruleMatchesB_of_pattern_none g rule sid hp]
      simp
  | some pat =>
      rw [runStep_of_pattern_some g rule acc pat hp, ruleMatchesB_of_pattern_some g rule sid pat hp]
      by_cases hemp : pat.isEmpty = true
      · simp [hemp]
      · rw [if_neg hemp, addAll_keys]
        constructor
        · rintro (h | h)
          · exact Or.inl h
          · exact Or.inr (by simp [hemp, (mem_idList _ _).mp h])
        · rintro (h | h)
          · exact Or.inl h
          · rw [Bool.and_eq_true, decide_eq_true_eq] at h
            exact Or.inr ((mem_idList _ _).mpr h.2)

theorem runStep_nodup (g : SymbolGraph) (rule : Rule)
    (acc : List (String × List Reason)) (h : (acc.map (·.1)).Nodup) :
    ((runStep g acc rule).map (·.1)).Nodup := by
  cases hp : rule.pattern with
  | none =>
      rw [runStep_of_pattern_none g rule acc hp]
      exact h
  | some pat =>
      rw [runStep_of_pattern_some g rule acc pat hp]
      by_cases hemp : pat.isEmpty = true
      · rw [if_pos hemp]
        exact h
      · rw [if_neg hemp]
        exact addAll_nodup _ _ acc h

theorem reasonsSpec_cons (g : SymbolGraph) (rule : Rule) (rest : List Rule) (sid : String) :
    reasonsSpec g (rule :: rest) sid
      = (if ruleMatchesB g rule sid then [(⟨rule.id, rule.description⟩ : Reason)] else [])
        ++ reasonsSpec g rest sid := by
  unfold reasonsSpec
  rw [List.filter_cons]
  by_cases h : ruleMatchesB g rule sid = true
  · rw [if_pos h, if_pos h, List.map_cons, List.singleton_append]
  · rw [if_neg h, if_neg h, List.nil_append]

theorem runRules_fold_props (g : SymbolGraph) (rules : List Rule) :
    ∀ (acc : List (String × List Reason)) (sid : String),
      ((reasonsOf (rules.foldl (runStep g) acc) sid).getD []
          = (reasonsOf acc sid).getD [] ++ reasonsSpec g rules sid)
      ∧ ((reasonsOf (rules.foldl (runStep g) acc) sid).isSome = true ↔
          (reasonsOf acc sid).isSome = true ∨ reasonsSpec g rules sid ≠ []) := by
  induction rules with
  | nil =>
      intro acc sid
      refine ⟨by simp [reasonsSpec], by simp [reasonsSpec]⟩
  | cons rule rest ih =>
      intro acc sid
      rw [List.foldl_cons]
      obtain ⟨ihv, ihs⟩ := ih (runStep g acc rule) sid
      rw [reasonsSpec_cons]
      constructor
      · rw [ihv, runStep_lookup]
        by_cases h : ruleMatchesB g rule sid = true
        · rw [if_pos h, if_pos h]
          simp
        · rw [if_neg h, if_neg h, List.nil_append]
      · rw [ihs, runStep_lookup]
        by_cases h : ruleMatchesB g rule sid = true
        · rw [if_pos h, if_pos h]
          simp
        · rw [if_neg h, if_neg h, List.nil_append]

theorem runRules_keys_nodup (g : SymbolGraph) (rules : List Rule) :
    ((runRules g rules).map (·.1)).Nodup := by
  unfold runRules
  have gen : ∀ (acc : List (String × List Reason)), (acc.map (·.1)).Nodup →
      ((rules.foldl (runStep g) acc).map (·.1)).Nodup := by
    induction rules with
    | nil => intro acc h; exact h
    | cons rule rest ih =>
        intro acc h
        rw [List.foldl_cons]
        exact ih _ (runStep_nodup g rule acc h)
  exact gen [] (by simp)

theorem find?_eq_of_mem_nodup (m : List (String × List Reason))
    (h : (m.map (·.1)).Nodup) (p : String × List Reason) (hp : p ∈ m) :
    m.find? (·.1 == p.1) = some p := by
  induction m with
  | nil => cases hp
  | cons q t ih =>
      rw [List.map_cons, List.nodup_cons] at h
      rcases List.mem_cons.mp hp with rfl | hp'
      · have hpos : ((fun x : String × List Reason => x.1 == p.1) p) = true :=
          beq_iff_eq.mpr rfl
        exact List.find?_cons_of_pos _ hpos
      · have hq : (q.1 == p.1) = false := by
          refine beq_eq_false_iff_ne.mpr (fun he => h.1 ?_)
          rw [he]
          exact List.mem_map.mpr ⟨p, hp', rfl⟩
        have hneg : ¬((fun x : String × List Reason => x.1 == p.1) q) = true := by
          simpa using hq
        have hstep : List.find? (fun x : String × List Reason => x.1 == p.1) (q :: t)
            = List.find? (fun x => x.1 == p.1) t := List.find?_cons_of_neg _ hneg
        rw [hstep]
        exact ih h.2 hp'

/-- The set of node ids the engine accumulates (the keys of
`excluded_symbols` after `AnalysisEngine.run`). -/
def excludedIds (g : SymbolGraph) (rules : List Rule) : Finset String :=
  ((runRules g rules).map (·.1)).toFinset

/-- C6: the excluded-id set distributes over rule-list concatenation, and a
symbol is excluded exactly when some rule of the list — independently of
every other rule — has a present, non-empty pattern matching it (each rule's
matched set `matchPattern g pat` is a function of the graph and that rule's
pattern alone). -/
theorem excluded_union_law (g : SymbolGraph) (r1 r2 : List Rule) :
    excludedIds g (r1 ++ r2) = excludedIds g r1 ∪ excludedIds g r2
    ∧ (∀ (rules : List Rule) (sid : String),
        sid ∈ excludedIds g rules ↔
          ∃ rule ∈ rules, ∃ pat, rule.pattern = some pat ∧ pat ≠ [] ∧
            sid ∈ matchPattern g pat) := by
  have hchar : ∀ (rules : List Rule) (sid : String),
      sid ∈ excludedIds g rules ↔ ∃ rule ∈ rules, ruleMatchesB g rule sid = true := by
    intro rules sid
    unfold excludedIds runRules
    rw [List.mem_toFinset]
    have gen : ∀ (acc : List (String × List Reason)),
        sid ∈ (rules.foldl (runStep g) acc).map (·.1) ↔
          sid ∈ acc.map (·.1) ∨ ∃ rule ∈ rules, ruleMatchesB g rule sid = true := by
      induction rules with
      | nil => intro acc; simp
      | cons rule rest ih =>
          intro acc
          rw [List.foldl_cons, ih, runStep_keys]
          constructor
          · rintro (⟨h | h⟩ | ⟨ru, hru, hm⟩)
            · exact Or.inl h
            · exact Or.inr ⟨rule, List.mem_cons_self _ _, h⟩
            · exact Or.inr ⟨ru, List.mem_cons_of_mem _ hru, hm⟩
          · rintro (h | ⟨ru, hru, hm⟩)
            · exact Or.inl (Or.inl h)
            · rcases List.mem_cons.mp hru with rfl | h'
              · exact Or.inl (Or.inr hm)
              · exact Or.inr ⟨ru, h', hm⟩
    rw [gen []]
    simp
  have hmB : ∀ (rule : Rule) (sid : String), ruleMatchesB g rule sid = true ↔
      ∃ pat, rule.pattern = some pat ∧ pat ≠ [] ∧ sid ∈ matchPattern g pat := by
    intro rule sid
    unfold ruleMatchesB
    cases hp : rule.pattern with
    | none => simp
    | some pat =>
        rw [Bool.and_eq_true, decide_eq_true_eq]
        constructor
        · rintro ⟨h1, h2⟩
          exact ⟨pat, rfl, by simpa using h1, h2⟩
        · rintro ⟨pat', hpe, hne, hmem⟩
          obtain rfl : pat = pat' := by injection hpe
          exact ⟨by simpa using hne, hmem⟩
  constructor
  · ext sid
    rw [Finset.mem_union, hchar, hchar, hchar]
    constructor
    · rintro ⟨rule, hru, hm⟩
      rcases List.mem_append.mp hru with h | h
      · exact Or.inl ⟨rule, h, hm⟩
      · exact Or.inr ⟨rule, h, hm⟩
    · rintro (⟨rule, hru, hm⟩ | ⟨rule, hru, hm⟩)
      · exact ⟨rule, List.mem_append.mpr (Or.inl hru), hm⟩
      · exact ⟨rule, List.mem_append.mpr (Or.inr hru), hm⟩
  · intro rules sid
    rw [hchar]
    constructor
    · rintro ⟨rule, hru, hm⟩
      exact ⟨rule, hru, (hmB rule sid).mp hm⟩
    · rintro ⟨rule, hru, hm⟩
      exact ⟨rule, hru, (hmB rule sid).mpr hm⟩

theorem length_filterMap_eq_length_filter {α β : Type} (f : α → Option β) (l : List α) :
    (l.filterMap f).length = (l.filter (fun a => (f a).isSome)).length := by
  induction l with
  | nil => rfl
  | cons a t ih =>
      cases h : f a with
      | none => simp [List.filterMap_cons, h, List.filter_cons, ih]
      | some b => simp [List.filterMap_cons, h, List.filter_cons, ih]

/-- C8: after the run, every accumulated entry's reason list is exactly the
`{rule_id, description}` entries of the rules that matched it, in rule
declaration order, and is non-empty (the entry was created on the first
match); the accumulator holds each id exactly once; and the emitted results
are exactly one record — carrying the node's `name`, `kind` and `location` —
per accumulated id that resolves to a node, ids without a node record being
silently dropped.  The well-formedness hypothesis is spec section 3's
invariant that every node carries `name` and `kind`: the Python guard is
`if symbol_data:` (dict falsiness), so on a graph with an empty node dict
the code would additionally drop that id; the invariant rules such nodes
out, making "resolves to a node" and "resolves to a truthy node" coincide. -/
theorem engine_reason_accumulation (g : SymbolGraph) (rules : List Rule)
    (hwf : WellFormed g) :
    (∀ p ∈ runRules g rules, p.2 = reasonsSpec g rules p.1 ∧ p.2 ≠ [])
    ∧ ((runRules g rules).map (·.1)).Nodup
    ∧ (∀ rec : ResultRecord, rec ∈ get_results g (runRules g rules) ↔
        ∃ p ∈ runRules g rules, ∃ nd, g.get_node p.1 = some nd ∧
          rec = ⟨attrGet nd "name", attrGet nd "kind", attrGet nd "location", p.2⟩)
    ∧ (get_results g (runRules g rules)).length
        = ((runRules g rules).filter (fun p => (g.get_node p.1).isSome)).length := by
  have hnodup := runRules_keys_nodup g rules
  have hentry : ∀ p ∈ runRules g rules, p.2 = reasonsSpec g rules p.1 ∧ p.2 ≠ [] := by
    intro p hp
    have hfind : (runRules g rules).find? (·.1 == p.1) = some p :=
      find?_eq_of_mem_nodup _ hnodup p hp
    have hro : reasonsOf (runRules g rules) p.1 = some p.2 := by
      unfold reasonsOf
      rw [hfind]
      rfl
    obtain ⟨hv, hs⟩ := runRules_fold_props g rules [] p.1
    rw [show rules.foldl (runStep g) [] = runRules g rules from rfl] at hv hs
    rw [hro] at hv hs
    simp only [Option.getD_some, List.nil_append] at hv
    have hv' : p.2 = reasonsSpec g rules p.1 := by
      rw [hv]
      show reasonsSpec g rules p.1 = (reasonsOf [] p.1).getD [] ++ reasonsSpec g rules p.1
      rfl
    refine ⟨hv', ?_⟩
    have hnone : reasonsOf ([] : List (String × List Reason)) p.1 = none := rfl
    have hsome : (some p.2).isSome = true := rfl
    rcases hs.mp hsome with h | h
    · rw [hnone] at h
      simp at h
    · rw [hv']
      exact h
  have hmem : ∀ rec : ResultRecord, rec ∈ get_results g (runRules g rules) ↔
      ∃ p ∈ runRules g rules, ∃ nd, g.get_node p.1 = some nd ∧
        rec = ⟨attrGet nd "name", attrGet nd "kind", attrGet nd "location", p.2⟩ := by
    intro rec
    unfold get_results
    rw [List.mem_filterMap]
    constructor
    · rintro ⟨p, hp, hf⟩
      cases hn : g.get_node p.1 with
      | none => rw [hn] at hf; simp at hf
      | some nd =>
          rw [hn] at hf
          simp only [Option.some_bind] at hf
          by_cases he : nd.isEmpty = true
          · rw [if_pos he] at hf
            simp at hf
          · rw [if_neg he] at hf
            exact ⟨p, hp, nd, hn, ((Option.some.injEq _ _).mp hf).symm⟩
    · rintro ⟨p, hp, nd, hn, hrec⟩
      refine ⟨p, hp, ?_⟩
      rw [hn]
      simp only [Option.some_bind]
      rw [if_neg (by rw [wf_node_not_isEmpty g hwf p.1 nd hn]; exact Bool.false_ne_true),
        hrec]
  refine ⟨hentry, hnodup, hmem, ?_⟩
  unfold get_results
  rw [length_filterMap_eq_length_filter]
  refine congrArg List.length (List.filter_congr (fun x _ => ?_))
  cases hn : g.get_node x.1 with
  | none => rfl
  | some nd =>
      have he := wf_node_not_isEmpty g hwf x.1 nd hn
      simp only [Option.some_bind]
      rw [if_neg (by rw [he]; exact Bool.false_ne_true)]
      rfl

theorem engine_reason_accumulation_witness :
    WellFormed ⟨[("n1", [("name", Value.vstr "Foo"), ("kind", Value.vstr "class")])], []⟩
    ∧ (get_results ⟨[("n1", [("name", Value.vstr "Foo"), ("kind", Value.vstr "class")])], []⟩
          (runRules ⟨[("n1", [("name", Value.vstr "Foo"), ("kind", Value.vstr "class")])], []⟩
            [⟨"R1", "rule one", some [⟨some (some "S"), none⟩]⟩])).length
        = ((runRules ⟨[("n1", [("name", Value.vstr "Foo"), ("kind", Value.vstr "class")])], []⟩
            [⟨"R1", "rule one", some [⟨some (some "S"), none⟩]⟩]).filter
              (fun p => (SymbolGraph.get_node
                ⟨[("n1", [("name", Value.vstr "Foo"), ("kind", Value.vstr "class")])], []⟩
                p.1).isSome)).length := by
  refine ⟨by unfold WellFormed; decide, ?_⟩
  exact (engine_reason_accumulation
    ⟨[("n1", [("name", Value.vstr "Foo"), ("kind", Value.vstr "class")])], []⟩
    [⟨"R1", "rule one", some [⟨some (some "S"), none⟩]⟩]
    (by unfold WellFormed; decide)).2.2.2

end RuleDB
